import Mathlib

/-!
Verification development for the QElectroTech `Diagram` scene model
(`sources/diagram.cpp`).  The C++ code is shallowly embedded: pure
arithmetic (grid snapping) becomes functions over `ℚ`, the potential
grouping loop becomes a recursive function over lists, the XML layer
becomes functions over a small DOM tree type, and the undo-integrated
mutations become explicit state-passing functions.  Coordinates (`qreal`)
are modelled by exact rationals.
-/

namespace Snap

/-- Embedding of Qt's `qRound` on a real value: `int(d + 0.5)` for
`d >= 0` (truncation of a non-negative value is the floor) and
`int(d - 0.5)` for `d < 0` (truncation of a negative value is the
ceiling). -/
def qRound (q : ℚ) : ℤ :=
  if 0 ≤ q then ⌊q + 1/2⌋ else ⌈q - 1/2⌉

/-- Embedding of `Diagram::snapToGrid` (diagram.cpp:2315-2335).
`ctrl` is the state of the Control keyboard modifier, `gx`/`gy` are the
grid steps read from the settings (defaulting to `Diagram::xGrid` /
`Diagram::yGrid`).  With Control held the point is rounded to the
nearest pixel; otherwise each coordinate is snapped to the grid by
`qRound(c / grid) * grid`. -/
def snapToGrid (ctrl : Bool) (gx gy : ℤ) (p : ℚ × ℚ) : ℚ × ℚ :=
  if ctrl then
    ((qRound p.1 : ℚ), (qRound p.2 : ℚ))
  else
    ((qRound (p.1 / (gx : ℚ)) : ℚ) * (gx : ℚ),
     (qRound (p.2 / (gy : ℚ)) : ℚ) * (gy : ℚ))

theorem qRound_eq_round (q : ℚ) :
    qRound q = if 0 ≤ q then round q else -(round (-q)) := by
  unfold qRound
  by_cases h : 0 ≤ q
  · simp [h, round_eq]
  · simp only [h, if_false]
    have h1 : ⌊-(q - 1/2)⌋ = -⌈q - 1/2⌉ := Int.floor_neg
    have h2 : -(q - 1/2) = -q + 1/2 := by ring
    rw [h2] at h1
    rw [round_eq]
    omega

theorem abs_sub_qRound (q : ℚ) : |q - qRound q| ≤ 1/2 := by
  rw [qRound_eq_round]
  by_cases h : 0 ≤ q
  · simpa [h] using abs_sub_round q
  · simp only [h, if_false]
    have : |(-q) - round (-q)| ≤ 1/2 := abs_sub_round (-q)
    have e : q - ((-(round (-q)) : ℤ) : ℚ) = -((-q) - round (-q)) := by
      push_cast; ring
    rw [e, abs_neg]
    exact this

theorem qRound_intCast (k : ℤ) : qRound (k : ℚ) = k := by
  rw [qRound_eq_round]
  by_cases h : (0 : ℚ) ≤ k
  · simp [h, round_intCast]
  · simp only [h, if_false]
    have : round ((-k : ℤ) : ℚ) = -k := round_intCast (-k)
    push_cast at this
    omega

/-- `qRound q` is a nearest integer to `q`. -/
theorem qRound_nearest (q : ℚ) (m : ℤ) : |q - qRound q| ≤ |q - m| := by
  by_cases hm : m = qRound q
  · subst hm; exact le_refl _
  · have hne : (qRound q : ℚ) ≠ (m : ℚ) := by
      exact_mod_cast fun h => hm (by exact_mod_cast h.symm)
    have h1 : (1 : ℚ) ≤ |(qRound q : ℚ) - m| := by
      have : qRound q - m ≠ 0 := fun h => hne (by
        have : (qRound q : ℤ) = m := by omega
        exact_mod_cast congrArg (fun z : ℤ => (z : ℚ)) this)
      have : 1 ≤ |qRound q - m| := Int.one_le_abs (by omega)
      calc (1 : ℚ) ≤ ((|qRound q - m| : ℤ) : ℚ) := by exact_mod_cast this
        _ = |(qRound q : ℚ) - m| := by push_cast [Int.cast_abs]; ring_nf
    have h2 : |q - qRound q| ≤ 1/2 := abs_sub_qRound q
    have h3 : |(qRound q : ℚ) - m| ≤ |(qRound q : ℚ) - q| + |q - m| := by
      calc |(qRound q : ℚ) - m| = |((qRound q : ℚ) - q) + (q - m)| := by ring_nf
        _ ≤ |(qRound q : ℚ) - q| + |q - m| := abs_add _ _
    have h4 : |(qRound q : ℚ) - q| = |q - qRound q| := abs_sub_comm _ _
    linarith

/-- When an integer `m` is exactly as close to `q` as `qRound q` is, the
rounded value is the one further away from zero (half-way ties are
rounded away from zero). -/
theorem qRound_tie_away (q : ℚ) (m : ℤ)
    (h : |q - qRound q| = |q - m|) : |m| ≤ |qRound q| := by
  by_cases hm : m = qRound q
  · subst hm; exact le_refl _
  · -- both distances are exactly 1/2
    have hne : qRound q - m ≠ 0 := by
      intro h0
      exact hm (by omega)
    have h1 : (1 : ℚ) ≤ |(qRound q : ℚ) - m| := by
      have : 1 ≤ |qRound q - m| := Int.one_le_abs (by omega)
      calc (1 : ℚ) ≤ ((|qRound q - m| : ℤ) : ℚ) := by exact_mod_cast this
        _ = |(qRound q : ℚ) - m| := by push_cast [Int.cast_abs]; ring_nf
    have h2 : |q - qRound q| ≤ 1/2 := abs_sub_qRound q
    have h3 : |(qRound q : ℚ) - m| ≤ |(qRound q : ℚ) - q| + |q - m| := by
      calc |(qRound q : ℚ) - m| = |((qRound q : ℚ) - q) + (q - m)| := by ring_nf
        _ ≤ |(qRound q : ℚ) - q| + |q - m| := abs_add _ _
    have h4 : |(qRound q : ℚ) - q| = |q - qRound q| := abs_sub_comm _ _
    have hhalf : |q - qRound q| = 1/2 := by
      rw [← h] at h3
      linarith [abs_nonneg (q - qRound q)]
    have hm_half : |q - (m : ℚ)| = 1/2 := by rw [← h]; exact hhalf
    -- q - qRound q = -(q - m), hence m = 2q - qRound q
    have hsum : (m : ℚ) = 2 * q - qRound q := by
      rcases abs_eq (by norm_num : (0:ℚ) ≤ 1/2) |>.mp hhalf with hq | hq <;>
      rcases abs_eq (by norm_num : (0:ℚ) ≤ 1/2) |>.mp hm_half with hq' | hq'
      · exfalso; apply hm
        have : (m : ℚ) = (qRound q : ℚ) := by linarith
        exact_mod_cast this
      · linarith
      · linarith
      · exfalso; apply hm
        have : (m : ℚ) = (qRound q : ℚ) := by linarith
        exact_mod_cast this
    by_cases hq : 0 ≤ q
    · -- qRound q = ⌊q + 1/2⌋; the tie resolves to q = qRound q - 1/2
      have hr : qRound q = ⌊q + 1/2⌋ := by unfold qRound; simp [hq]
      have hcase : q = (qRound q : ℚ) - 1/2 := by
        rcases abs_eq (by norm_num : (0:ℚ) ≤ 1/2) |>.mp hhalf with hc | hc
        · -- q = qRound q + 1/2 is impossible for the floor form
          exfalso
          have heq : q + 1/2 = ((qRound q + 1 : ℤ) : ℚ) := by push_cast; linarith
          have h5 : qRound q = qRound q + 1 := by
            conv_lhs => rw [hr, heq, Int.floor_intCast]
          omega
        · linarith
      have hm_val : (m : ℚ) = (qRound q : ℚ) - 1 := by
        rw [hsum]; linarith
      have hm_int : m = qRound q - 1 := by exact_mod_cast hm_val
      have hr_pos : 1 ≤ qRound q := by
        have h6 : (0 : ℚ) ≤ (qRound q : ℚ) - 1/2 := by rw [← hcase]; exact hq
        have h7 : (0 : ℚ) < (qRound q : ℚ) := by linarith
        have h8 : 0 < qRound q := by exact_mod_cast h7
        omega
      have ha1 : |m| = m := abs_of_nonneg (by omega)
      have ha2 : |qRound q| = qRound q := abs_of_nonneg (by omega)
      omega
    · -- q < 0: qRound q = ⌈q - 1/2⌉; the tie resolves to q = qRound q + 1/2
      push_neg at hq
      have hr : qRound q = ⌈q - 1/2⌉ := by unfold qRound; simp [not_le.mpr hq]
      have hcase : q = (qRound q : ℚ) + 1/2 := by
        rcases abs_eq (by norm_num : (0:ℚ) ≤ 1/2) |>.mp hhalf with hc | hc
        · linarith
        · -- q = qRound q - 1/2 is impossible for the ceiling form
          exfalso
          have heq : q - 1/2 = ((qRound q - 1 : ℤ) : ℚ) := by push_cast; linarith
          have h5 : qRound q = qRound q - 1 := by
            conv_lhs => rw [hr, heq, Int.ceil_intCast]
          omega
      have hm_val : (m : ℚ) = (qRound q : ℚ) + 1 := by
        rw [hsum]; linarith
      have hm_int : m = qRound q + 1 := by exact_mod_cast hm_val
      have hr_neg : qRound q ≤ -1 := by
        have h6 : (qRound q : ℚ) + 1/2 < 0 := by rw [← hcase]; exact hq
        have h7 : (qRound q : ℚ) < 0 := by linarith
        have h8 : qRound q < 0 := by exact_mod_cast h7
        omega
      have ha1 : |m| = -m := abs_of_nonpos (by omega)
      have ha2 : |qRound q| = -(qRound q) := abs_of_nonpos (by omega)
      omega

/-- Distance to a multiple of a positive step, expressed through the
quotient. -/
theorem abs_sub_mul_eq (x : ℚ) (g : ℤ) (hg : 0 < g) (k : ℤ) :
    |x - (k : ℚ) * g| = (g : ℚ) * |x / g - k| := by
  have hg' : (g : ℚ) ≠ 0 := by
    exact_mod_cast hg.ne'
  have h1 : x - (k : ℚ) * g = (g : ℚ) * (x / g - k) := by
    field_simp
    ring
  rw [h1, abs_mul, abs_of_pos (by exact_mod_cast hg : (0:ℚ) < g)]

theorem snapToGrid_false_eq (gx gy : ℤ) (p : ℚ × ℚ) :
    snapToGrid false gx gy p =
      ((qRound (p.1 / (gx : ℚ)) : ℚ) * (gx : ℚ),
       (qRound (p.2 / (gy : ℚ)) : ℚ) * (gy : ℚ)) := rfl

/-- The multiple `qRound (x/g) * g` is a nearest multiple of `g` to `x`,
with half-way ties resolved away from zero. -/
theorem snap_coord_nearest (x : ℚ) (g : ℤ) (hg : 0 < g) :
    (∀ m : ℤ, |x - (qRound (x / g) : ℚ) * g| ≤ |x - (m : ℚ) * g|)
    ∧ (∀ m : ℤ, |x - (qRound (x / g) : ℚ) * g| = |x - (m : ℚ) * g| →
        |(m : ℚ) * g| ≤ |(qRound (x / g) : ℚ) * g|) := by
  have hgq : (0 : ℚ) < (g : ℚ) := by exact_mod_cast hg
  constructor
  · intro m
    rw [abs_sub_mul_eq x g hg, abs_sub_mul_eq x g hg]
    exact mul_le_mul_of_nonneg_left (qRound_nearest (x / g) m) (le_of_lt hgq)
  · intro m htie
    rw [abs_sub_mul_eq x g hg, abs_sub_mul_eq x g hg] at htie
    have h1 : |x / g - (qRound (x / g) : ℚ)| = |x / g - (m : ℚ)| :=
      mul_left_cancel₀ hgq.ne' htie
    have h2 : |m| ≤ |qRound (x / g)| := qRound_tie_away (x / g) m h1
    have h3 : |(m : ℚ)| ≤ |(qRound (x / g) : ℚ)| := by
      calc |(m : ℚ)| = ((|m| : ℤ) : ℚ) := by push_cast [Int.cast_abs]; ring
        _ ≤ ((|qRound (x / g)| : ℤ) : ℚ) := by exact_mod_cast h2
        _ = |(qRound (x / g) : ℚ)| := by push_cast [Int.cast_abs]; ring
    rw [abs_mul, abs_mul]
    exact mul_le_mul_of_nonneg_right h3 (abs_nonneg _)

/-- C3: with Control not held, `Diagram::snapToGrid` returns the grid
point whose x coordinate is the multiple of `xGrid` nearest to `p.x()`
and whose y coordinate is the multiple of `yGrid` nearest to `p.y()`
(half-way ties rounded away from zero); the two coordinates are snapped
independently. -/
theorem C3_snapToGrid_nearest (gx gy : ℤ) (p : ℚ × ℚ)
    (hgx : 0 < gx) (hgy : 0 < gy) :
    ∃ kx ky : ℤ,
      snapToGrid false gx gy p = ((kx : ℚ) * gx, (ky : ℚ) * gy)
      ∧ (∀ m : ℤ, |p.1 - (kx : ℚ) * gx| ≤ |p.1 - (m : ℚ) * gx|)
      ∧ (∀ m : ℤ, |p.1 - (kx : ℚ) * gx| = |p.1 - (m : ℚ) * gx| →
          |(m : ℚ) * gx| ≤ |(kx : ℚ) * gx|)
      ∧ (∀ m : ℤ, |p.2 - (ky : ℚ) * gy| ≤ |p.2 - (m : ℚ) * gy|)
      ∧ (∀ m : ℤ, |p.2 - (ky : ℚ) * gy| = |p.2 - (m : ℚ) * gy| →
          |(m : ℚ) * gy| ≤ |(ky : ℚ) * gy|)
      ∧ (∀ q : ℚ, (snapToGrid false gx gy (p.1, q)).1 = (kx : ℚ) * gx
          ∧ (snapToGrid false gx gy (q, p.2)).2 = (ky : ℚ) * gy) := by
  refine ⟨qRound (p.1 / gx), qRound (p.2 / gy),
    snapToGrid_false_eq gx gy p,
    (snap_coord_nearest p.1 gx hgx).1,
    (snap_coord_nearest p.1 gx hgx).2,
    (snap_coord_nearest p.2 gy hgy).1,
    (snap_coord_nearest p.2 gy hgy).2,
    fun q => ⟨rfl, rfl⟩⟩

theorem C3_snapToGrid_nearest_witness :
    (0 : ℤ) < 10 ∧
    ∃ kx ky : ℤ,
      snapToGrid false 10 10 ((7 : ℚ), (-3 : ℚ)) = ((kx : ℚ) * (10 : ℤ), (ky : ℚ) * (10 : ℤ))
      ∧ (∀ m : ℤ, |(7 : ℚ) - (kx : ℚ) * (10 : ℤ)| ≤ |(7 : ℚ) - (m : ℚ) * (10 : ℤ)|)
      ∧ (∀ m : ℤ, |(7 : ℚ) - (kx : ℚ) * (10 : ℤ)| = |(7 : ℚ) - (m : ℚ) * (10 : ℤ)| →
          |(m : ℚ) * (10 : ℤ)| ≤ |(kx : ℚ) * (10 : ℤ)|)
      ∧ (∀ m : ℤ, |(-3 : ℚ) - (ky : ℚ) * (10 : ℤ)| ≤ |(-3 : ℚ) - (m : ℚ) * (10 : ℤ)|)
      ∧ (∀ m : ℤ, |(-3 : ℚ) - (ky : ℚ) * (10 : ℤ)| = |(-3 : ℚ) - (m : ℚ) * (10 : ℤ)| →
          |(m : ℚ) * (10 : ℤ)| ≤ |(ky : ℚ) * (10 : ℤ)|)
      ∧ (∀ q : ℚ, (snapToGrid false 10 10 ((7 : ℚ), q)).1 = (kx : ℚ) * (10 : ℤ)
          ∧ (snapToGrid false 10 10 (q, (-3 : ℚ))).2 = (ky : ℚ) * (10 : ℤ)) :=
  ⟨by decide, C3_snapToGrid_nearest 10 10 ((7 : ℚ), (-3 : ℚ)) (by decide) (by decide)⟩

/-- C6: `Diagram::snapToGrid` is idempotent for a fixed grid spacing and
fixed keyboard-modifier state, and every point whose coordinates are
already multiples of the grid steps is a fixed point. -/
theorem C6_snapToGrid_idempotent (ctrl : Bool) (gx gy : ℤ)
    (hgx : gx ≠ 0) (hgy : gy ≠ 0) :
    (∀ p : ℚ × ℚ, snapToGrid ctrl gx gy (snapToGrid ctrl gx gy p) =
        snapToGrid ctrl gx gy p)
    ∧ (∀ kx ky : ℤ,
        snapToGrid ctrl gx gy ((kx : ℚ) * gx, (ky : ℚ) * gy) =
          ((kx : ℚ) * gx, (ky : ℚ) * gy)) := by
  have hgxq : (gx : ℚ) ≠ 0 := by exact_mod_cast hgx
  have hgyq : (gy : ℚ) ≠ 0 := by exact_mod_cast hgy
  cases ctrl with
  | true =>
    constructor
    · intro p
      simp only [snapToGrid, if_true, qRound_intCast]
    · intro kx ky
      simp only [snapToGrid, if_true]
      have h1 : ((kx : ℚ) * gx) = (((kx * gx : ℤ) : ℚ)) := by push_cast; ring
      have h2 : ((ky : ℚ) * gy) = (((ky * gy : ℤ) : ℚ)) := by push_cast; ring
      rw [h1, h2, qRound_intCast, qRound_intCast]
  | false =>
    have key : ∀ (k g : ℤ), (g : ℚ) ≠ 0 →
        (qRound ((k : ℚ) * g / g) : ℚ) * g = (k : ℚ) * g := by
      intro k g hgq
      rw [mul_div_assoc, div_self hgq, mul_one, qRound_intCast]
    constructor
    · intro p
      rw [snapToGrid_false_eq gx gy p, snapToGrid_false_eq]
      simp only
      rw [key _ gx hgxq, key _ gy hgyq]
    · intro kx ky
      rw [snapToGrid_false_eq]
      simp only
      rw [key _ gx hgxq, key _ gy hgyq]

theorem C6_snapToGrid_idempotent_witness :
    (10 : ℤ) ≠ 0 ∧
    (∀ p : ℚ × ℚ, snapToGrid false 10 10 (snapToGrid false 10 10 p) =
        snapToGrid false 10 10 p)
    ∧ (∀ kx ky : ℤ,
        snapToGrid false 10 10 ((kx : ℚ) * (10 : ℤ), (ky : ℚ) * (10 : ℤ)) =
          ((kx : ℚ) * (10 : ℤ), (ky : ℚ) * (10 : ℤ))) :=
  ⟨by decide, C6_snapToGrid_idempotent false 10 10 (by decide) (by decide)⟩

end Snap

namespace Potentials

/-- Conductors are identified by their scene identity (pointer). -/
abbrev Conductor := ℕ

/-- Modelled from the spec: `Conductor::relatedPotentialConductors` is
not among the sources under verification (only its caller
`Diagram::potentials` is).  The spec describes the computation as
"net-grouping via union-find-like potential grouping": every conductor
of the diagram belongs to one potential (net), represented by a root
function `root`; the conductors related to `c` are the other conductors
of the diagram lying in the same potential as `c`. -/
def relatedPotentialConductors (root : Conductor → ℕ) (all : List Conductor)
    (c : Conductor) : Finset ℕ :=
  ((all.filter (fun d => root d = root c)).toFinset).erase c

/-- The do/while loop of `Diagram::potentials` (diagram.cpp:736-754):
take the first conductor of the work list, join it with its related
conductors into one potential, remove all of its members from the work
list (scene item lists hold no duplicates, so `QList::removeOne` on each
member of the `QSet` amounts to a filter), and repeat until the work
list is empty. -/
def potentialsLoop (root : Conductor → ℕ) (all : List Conductor) :
    List Conductor → List (Finset ℕ)
  | [] => []
  | c :: rest =>
    let one : Finset ℕ := insert c (relatedPotentialConductors root all c)
    one :: potentialsLoop root all (rest.filter (fun d => d ∉ one))
termination_by l => l.length
decreasing_by
  simp only [List.length_cons]
  exact Nat.lt_succ_of_le (List.length_filter_le _ _)

/-- Embedding of `Diagram::potentials` (diagram.cpp:736-754): an empty
conductor list yields an empty potential list, otherwise the work loop
runs on `content().conductors()`. -/
def potentials (root : Conductor → ℕ) (cs : List Conductor) :
    List (Finset ℕ) :=
  if cs.isEmpty then [] else potentialsLoop root cs cs

/-- The potential class of `c`: all conductors of the diagram at the
same potential as `c` (including `c` itself when `c` is a conductor of
the diagram). -/
def classOf (root : Conductor → ℕ) (all : List Conductor)
    (c : Conductor) : Finset ℕ :=
  (all.filter (fun d => root d = root c)).toFinset

theorem mem_classOf (root : Conductor → ℕ) (all : List Conductor)
    (c d : Conductor) :
    d ∈ classOf root all c ↔ d ∈ all ∧ root d = root c := by
  simp [classOf, List.mem_filter]

theorem insert_related_eq_classOf (root : Conductor → ℕ)
    (all : List Conductor) (c : Conductor) (hc : c ∈ all) :
    insert c (relatedPotentialConductors root all c) = classOf root all c := by
  unfold relatedPotentialConductors
  rw [Finset.insert_erase]
  · rfl
  · show c ∈ classOf root all c
    rw [mem_classOf]
    exact ⟨hc, rfl⟩

theorem potentialsLoop_nil (root : Conductor → ℕ) (all : List Conductor) :
    potentialsLoop root all [] = [] := by
  simp [potentialsLoop]

theorem potentialsLoop_cons (root : Conductor → ℕ) (all : List Conductor)
    (c : Conductor) (rest : List Conductor) :
    potentialsLoop root all (c :: rest) =
      insert c (relatedPotentialConductors root all c) ::
        potentialsLoop root all
          (rest.filter
            (fun d => d ∉ insert c (relatedPotentialConductors root all c))) := by
  rw [potentialsLoop]

theorem potentialsLoop_spec (root : Conductor → ℕ) (all : List Conductor) :
    ∀ (n : ℕ) (l : List Conductor), l.length ≤ n → (∀ x ∈ l, x ∈ all) →
      (∀ S ∈ potentialsLoop root all l, ∃ c, c ∈ l ∧ S = classOf root all c)
      ∧ (potentialsLoop root all l).Pairwise (fun S T => Disjoint S T)
      ∧ ((potentialsLoop root all l).foldr (· ∪ ·) ∅ =
          all.toFinset.filter (fun d => ∃ c ∈ l, root d = root c)) := by
  intro n
  induction n with
  | zero =>
    intro l hlen _
    have : l = [] := List.length_eq_zero.mp (Nat.le_zero.mp hlen)
    subst this
    refine ⟨by simp [potentialsLoop_nil], by simp [potentialsLoop_nil], ?_⟩
    rw [potentialsLoop_nil]
    ext d
    simp
  | succ n ih =>
    intro l hlen hsub
    cases l with
    | nil =>
      refine ⟨by simp [potentialsLoop_nil], by simp [potentialsLoop_nil], ?_⟩
      rw [potentialsLoop_nil]
      ext d
      simp
    | cons c rest =>
      have hc_all : c ∈ all := hsub c (by simp)
      have hone : insert c (relatedPotentialConductors root all c) =
          classOf root all c := insert_related_eq_classOf root all c hc_all
      set rest' := rest.filter
        (fun d => d ∉ insert c (relatedPotentialConductors root all c)) with hrest'
      have hlen' : rest'.length ≤ n := by
        have h1 : rest'.length ≤ rest.length := List.length_filter_le _ _
        have h2 : rest.length ≤ n := by
          simpa [Nat.succ_le_succ_iff] using hlen
        omega
      have hsub' : ∀ x ∈ rest', x ∈ all := by
        intro x hx
        exact hsub x (by
          rw [hrest'] at hx
          exact List.mem_cons_of_mem c (List.mem_of_mem_filter hx))
      obtain ⟨iha, ihb, ihc⟩ := ih rest' hlen' hsub'
      have hmem_rest' : ∀ x, x ∈ rest' ↔ (x ∈ rest ∧ root x ≠ root c) := by
        intro x
        constructor
        · intro hx
          rw [hrest'] at hx
          have h1 := List.mem_of_mem_filter hx
          have h2 := List.of_mem_filter hx
          simp only [decide_eq_true_eq] at h2
          rw [hone, mem_classOf] at h2
          refine ⟨h1, fun hroot => h2 ⟨hsub x (List.mem_cons_of_mem c h1), hroot⟩⟩
        · intro ⟨h1, h2⟩
          rw [hrest']
          apply List.mem_filter.mpr
          refine ⟨h1, by
            simp only [decide_eq_true_eq]
            rw [hone, mem_classOf]
            exact fun hcl => h2 hcl.2⟩
      rw [potentialsLoop_cons]
      refine ⟨?_, ?_, ?_⟩
      · intro S hS
        rcases List.mem_cons.mp hS with h | h
        · exact ⟨c, by simp, by rw [h, hone]⟩
        · obtain ⟨c', hc', hSc'⟩ := iha S h
          exact ⟨c', List.mem_cons_of_mem c ((hmem_rest' c').mp hc').1, hSc'⟩
      · apply List.Pairwise.cons
        · intro T hT
          obtain ⟨c', hc', hTc'⟩ := iha T hT
          have hroot' : root c' ≠ root c := ((hmem_rest' c').mp hc').2
          rw [hone, hTc']
          rw [Finset.disjoint_left]
          intro d hd1 hd2
          rw [mem_classOf] at hd1 hd2
          exact hroot' (hd2.2.symm.trans hd1.2)
        · exact ihb
      · simp only [List.foldr_cons]
        rw [ihc, hone]
        ext d
        simp only [Finset.mem_union, Finset.mem_filter, mem_classOf,
          List.mem_toFinset]
        constructor
        · rintro (⟨hd, hroot⟩ | ⟨hd, c', hc', hroot⟩)
          · exact ⟨hd, c, by simp, hroot⟩
          · exact ⟨hd, c', List.mem_cons_of_mem c ((hmem_rest' c').mp hc').1,
              hroot⟩
        · rintro ⟨hd, c', hc', hroot⟩
          rcases List.mem_cons.mp hc' with h | h
          · exact Or.inl ⟨hd, by rw [← h]; exact hroot⟩
          · by_cases hcc : root d = root c
            · exact Or.inl ⟨hd, hcc⟩
            · refine Or.inr ⟨hd, c', ?_, hroot⟩
              rw [hmem_rest' c']
              exact ⟨h, fun he => hcc (hroot.trans he)⟩

/-- C2: `Diagram::potentials()` returns a partition of the diagram's
conductors into potentials: every returned set is non-empty, the
returned sets are pairwise disjoint, their union is exactly the
conductors of `content()`, and each set consists of one conductor
together with all conductors related to it by
`relatedPotentialConductors()`. -/
theorem C2_potentials_partition (root : Conductor → ℕ) (cs : List Conductor) :
    (∀ S ∈ potentials root cs, S.Nonempty)
    ∧ (potentials root cs).Pairwise (fun S T => Disjoint S T)
    ∧ ((potentials root cs).foldr (· ∪ ·) ∅ = cs.toFinset)
    ∧ (∀ S ∈ potentials root cs, ∃ c ∈ S,
        S = insert c (relatedPotentialConductors root cs c)) := by
  unfold potentials
  by_cases hcs : cs.isEmpty
  · have : cs = [] := List.isEmpty_iff.mp hcs
    subst this
    simp
  · rw [if_neg (by simpa using hcs)]
    obtain ⟨ha, hb, hc⟩ :=
      potentialsLoop_spec root cs cs.length cs (le_refl _) (fun x hx => hx)
    refine ⟨?_, hb, ?_, ?_⟩
    · intro S hS
      obtain ⟨c, hcl, hSc⟩ := ha S hS
      exact ⟨c, by rw [hSc, mem_classOf]; exact ⟨hcl, rfl⟩⟩
    · rw [hc]
      ext d
      simp only [Finset.mem_filter, List.mem_toFinset]
      exact ⟨fun h => h.1, fun h => ⟨h, d, h, rfl⟩⟩
    · intro S hS
      obtain ⟨c, hcl, hSc⟩ := ha S hS
      refine ⟨c, ?_, ?_⟩
      · rw [hSc, mem_classOf]
        exact ⟨hcl, rfl⟩
      · rw [hSc, insert_related_eq_classOf root cs c hcl]

theorem C2_potentials_partition_witness :
    (∀ S ∈ potentials (fun n => n % 2) [0, 1, 2, 3], S.Nonempty)
    ∧ (potentials (fun n => n % 2) [0, 1, 2, 3]).Pairwise
        (fun S T => Disjoint S T)
    ∧ ((potentials (fun n => n % 2) [0, 1, 2, 3]).foldr (· ∪ ·) ∅ =
        ([0, 1, 2, 3] : List Conductor).toFinset)
    ∧ (∀ S ∈ potentials (fun n => n % 2) [0, 1, 2, 3], ∃ c ∈ S,
        S = insert c (relatedPotentialConductors (fun n => n % 2) [0, 1, 2, 3] c)) :=
  C2_potentials_partition (fun n => n % 2) [0, 1, 2, 3]

theorem potentialsLoop_congr (root₁ root₂ : Conductor → ℕ)
    (all : List Conductor)
    (h : ∀ a ∈ all, ∀ b ∈ all, (root₁ a = root₁ b ↔ root₂ a = root₂ b)) :
    ∀ (n : ℕ) (l : List Conductor), l.length ≤ n → (∀ x ∈ l, x ∈ all) →
      potentialsLoop root₁ all l = potentialsLoop root₂ all l := by
  intro n
  induction n with
  | zero =>
    intro l hlen _
    have : l = [] := List.length_eq_zero.mp (Nat.le_zero.mp hlen)
    subst this
    rw [potentialsLoop_nil, potentialsLoop_nil]
  | succ n ih =>
    intro l hlen hsub
    cases l with
    | nil => rw [potentialsLoop_nil, potentialsLoop_nil]
    | cons c rest =>
      have hc_all : c ∈ all := hsub c (by simp)
      have hrel : relatedPotentialConductors root₁ all c =
          relatedPotentialConductors root₂ all c := by
        unfold relatedPotentialConductors
        congr 1
        congr 1
        apply List.filter_congr
        intro d hd
        simp only [decide_eq_decide]
        exact h d hd c hc_all
      rw [potentialsLoop_cons, potentialsLoop_cons, hrel]
      congr 1
      apply ih
      · exact le_trans (List.length_filter_le _ _)
          (by simpa [Nat.succ_le_succ_iff] using hlen)
      · intro x hx
        exact hsub x (List.mem_cons_of_mem c (List.mem_of_mem_filter hx))

/-- C7: `Diagram::potentials()` is deterministic and depends only on
the diagram state: two runs over the same conductors in the same scene
order, with the same connectivity (the same same-potential relation on
those conductors), return equal lists of equal conductor sets. -/
theorem C7_potentials_deterministic (root₁ root₂ : Conductor → ℕ)
    (cs₁ cs₂ : List Conductor) (hcs : cs₁ = cs₂)
    (h : ∀ a ∈ cs₁, ∀ b ∈ cs₁, (root₁ a = root₁ b ↔ root₂ a = root₂ b)) :
    potentials root₁ cs₁ = potentials root₂ cs₂ := by
  subst hcs
  unfold potentials
  by_cases hcs : cs₁.isEmpty
  · simp [hcs]
  · simp only [hcs, if_false]
    exact potentialsLoop_congr root₁ root₂ cs₁ h cs₁.length cs₁ (le_refl _)
      (fun x hx => hx)

theorem C7_potentials_deterministic_witness :
    potentials (fun n => n) [0, 1, 2] = potentials (fun n => n + 5) [0, 1, 2] :=
  C7_potentials_deterministic (fun n => n) (fun n => n + 5) [0, 1, 2] [0, 1, 2]
    rfl (by decide)

end Potentials

namespace QStr

/-- The ASCII digit character for a decimal digit. -/
def digitChar (d : ℕ) : Char := Char.ofNat (48 + d)

/-- Decimal digit characters of `n`, most significant first, computed
with explicit fuel so that the definition is structural. -/
def natCharsAux : ℕ → ℕ → List Char
  | 0, _ => []
  | f + 1, n =>
    if n < 10 then [digitChar n]
    else natCharsAux f (n / 10) ++ [digitChar (n % 10)]

/-- Embedding of `QString::number` on natural numbers: the decimal
representation of `n`. -/
def natStr (n : ℕ) : String := ⟨natCharsAux (n + 1) n⟩

theorem natCharsAux_fuel : ∀ (f₁ : ℕ) (n f₂ : ℕ), n < f₁ → n < f₂ →
    natCharsAux f₁ n = natCharsAux f₂ n := by
  intro f₁
  induction f₁ with
  | zero => intro n f₂ h _; omega
  | succ f ih =>
    intro n f₂ h2 hf2
    cases f₂ with
    | zero => omega
    | succ g =>
      by_cases hn : n < 10
      · simp [natCharsAux, hn]
      · have hdiv : n / 10 < n := Nat.div_lt_self (by omega) (by omega)
        simp only [natCharsAux, hn, if_false]
        rw [ih (n / 10) g (by omega) (by omega)]

/-- Valuation of a decimal digit string, the left inverse needed for
injectivity of `natStr`. -/
def toNum (l : List Char) : ℕ :=
  l.foldl (fun acc c => acc * 10 + (c.toNat - 48)) 0

theorem digitChar_toNat : ∀ d : ℕ, d < 10 → (digitChar d).toNat = 48 + d := by
  decide

theorem toNum_append_singleton (l : List Char) (c : Char) :
    toNum (l ++ [c]) = toNum l * 10 + (c.toNat - 48) := by
  unfold toNum
  rw [List.foldl_append]
  rfl

theorem toNum_natCharsAux : ∀ n : ℕ, toNum (natCharsAux (n + 1) n) = n := by
  intro n
  induction n using Nat.strong_induction_on with
  | _ n ih =>
    by_cases hn : n < 10
    · simp only [natCharsAux, hn, if_true]
      unfold toNum
      simp [List.foldl_cons, digitChar_toNat n hn]
    · have hdiv : n / 10 < n := Nat.div_lt_self (by omega) (by omega)
      simp only [natCharsAux, hn, if_false]
      rw [natCharsAux_fuel n (n / 10) (n / 10 + 1) (by omega) (by omega)]
      rw [toNum_append_singleton, ih (n / 10) hdiv,
        digitChar_toNat (n % 10) (Nat.mod_lt n (by omega))]
      omega

theorem natStr_injective : ∀ m n : ℕ, natStr m = natStr n → m = n := by
  intro m n h
  have hdata : natCharsAux (m + 1) m = natCharsAux (n + 1) n :=
    congrArg String.data h
  have := congrArg toNum hdata
  rwa [toNum_natCharsAux, toNum_natCharsAux] at this

theorem natStr_length_pos (n : ℕ) : 1 ≤ (natStr n).length := by
  show 1 ≤ (natCharsAux (n + 1) n).length
  by_cases hn : n < 10
  · simp [natCharsAux, hn]
  · simp [natCharsAux, hn]

/-- Embedding of `QString::toInt` restricted to the strings the diagram
code actually feeds it: an optional sign followed by decimal digits
yields the corresponding integer, any other string (such as the empty
string, `"true"` or `"false"`) fails to parse and yields 0. -/
def digitsVal (l : List Char) : Option ℕ :=
  if l.isEmpty then none
  else if l.all (fun c => 48 ≤ c.toNat && c.toNat ≤ 57) then some (toNum l)
  else none

def qstringToInt (s : String) : Int :=
  match s.data with
  | [] => 0
  | '-' :: rest =>
    match digitsVal rest with
    | some v => -(v : Int)
    | none => 0
  | '+' :: rest =>
    match digitsVal rest with
    | some v => (v : Int)
    | none => 0
  | l =>
    match digitsVal l with
    | some v => (v : Int)
    | none => 0

end QStr

/-- A DOM element (`QDomElement`): a tag name, an ordered attribute list
with unique names, and a list of child elements. -/
structure Dom where
  tag : String
  attrs : List (String × String)
  children : List Dom

namespace Dom

/-- `QDomElement::attribute` without its default: the value of the
attribute named `k`, if present. -/
def getAttr (e : Dom) (k : String) : Option String :=
  (e.attrs.find? (fun kv => kv.1 == k)).map (·.2)

/-- `QDomElement::attribute(k, deflt)`. -/
def attrOr (e : Dom) (k deflt : String) : String :=
  (e.getAttr k).getD deflt

/-- `QDomElement::hasAttribute`. -/
def hasAttr (e : Dom) (k : String) : Bool :=
  (e.getAttr k).isSome

/-- `QDomElement::setAttribute`: replaces the value of an existing
attribute of the same name, otherwise adds the attribute. -/
def setAttr (e : Dom) (k v : String) : Dom :=
  { e with attrs :=
      if e.attrs.any (fun kv => kv.1 == k) then
        e.attrs.map (fun kv => if kv.1 == k then (kv.1, v) else kv)
      else e.attrs ++ [(k, v)] }

end Dom

namespace Folio

open QStr

/-- The `for (int j = 0; ...)` loop of `Diagram::folioSequentialsToXml`
(diagram.cpp:1038-1058): sets one attribute `seq + number(j+1)` per list
entry on the element.  `j` here is the one-based attribute index. -/
def writeSeqAttrs (seq : String) : List String → ℕ → Dom → Dom
  | [], _, e => e
  | v :: rest, j, e => writeSeqAttrs seq rest (j + 1) (e.setAttr (seq ++ natStr j) v)

/-- Embedding of `Diagram::folioSequentialsToXml`
(diagram.cpp:1038-1058): for each hash entry, create an element of tag
`typeTag`, set its `title` attribute to the key and attributes
`seq + "1" ... seq + "N"` to the list entries; the produced children are
appended to the destination element, returned here as a list. -/
def folioSequentialsToXml (hash : List (String × List String))
    (seq typeTag : String) : List Dom :=
  hash.map (fun kv => writeSeqAttrs seq kv.2 1 (Dom.mk typeTag [("title", kv.1)] []))

/-- The `while (folioseq.hasAttribute(seq + QString::number(i)))` loop
of `Diagram::folioSequentialsFromXml` (diagram.cpp:1543-1568), with
explicit fuel: collects attribute values `seq+"i"`, `seq+"i+1"`, ...
until one is missing.  An element carries finitely many attributes, so
`attrs.length + 1` steps always reach a missing attribute. -/
def readSeqAux (e : Dom) (seq : String) : ℕ → ℕ → List String
  | 0, _ => []
  | f + 1, i =>
    match e.getAttr (seq ++ natStr i) with
    | some v => v :: readSeqAux e seq f (i + 1)
    | none => []

def readFolioSeq (e : Dom) (seq : String) : List String :=
  readSeqAux e seq (e.attrs.length + 1) 1

/-- Modelled from the spec: `QET::findInDomElement` is not among the
sources under verification; as used by `Diagram::fromXml` and
`Diagram::folioSequentialsFromXml`, it returns the child elements named
`inner` of the children named `outer` of `root`. -/
def findInDomElement (root : Dom) (outer inner : String) : List Dom :=
  (root.children.filter (fun c => c.tag == outer)).flatMap
    (fun c => c.children.filter (fun d => d.tag == inner))

/-- `QHash::insert`: replaces the value of an existing key, otherwise
adds the pair.  The hash is modelled as an association list with unique
keys. -/
def insertHash (hash : List (String × List String)) (k : String)
    (v : List String) : List (String × List String) :=
  if hash.any (fun kv => kv.1 == k) then
    hash.map (fun kv => if kv.1 == k then (kv.1, v) else kv)
  else hash ++ [(k, v)]

/-- Embedding of `Diagram::folioSequentialsFromXml`
(diagram.cpp:1543-1568): for every element of tag `folioSeqTag` inside
an `autonumTag` child of `root`, read each of its `typeTag` children as
one hash entry (`title` attribute and the `seq`-numbered attribute
list) and insert it. -/
def folioSequentialsFromXml (root : Dom) (hash : List (String × List String))
    (folioSeqTag seq typeTag autonumTag : String) :
    List (String × List String) :=
  (findInDomElement root autonumTag folioSeqTag).foldl
    (fun h x =>
      (x.children.filter (fun c => c.tag == typeTag)).foldl
        (fun h' fs => insertHash h' (fs.attrOr "title" "") (readFolioSeq fs seq))
        h)
    hash

theorem key_inj (seq : String) (i j : ℕ)
    (h : seq ++ natStr i = seq ++ natStr j) : i = j := by
  apply natStr_injective
  apply String.ext
  have hd := congrArg String.data h
  rw [String.data_append, String.data_append] at hd
  exact List.append_cancel_left hd

/-- The attribute pairs written by the `folioSequentialsToXml` loop for
a value list, starting at one-based index `j`. -/
def seqPairs (seq : String) : List String → ℕ → List (String × String)
  | [], _ => []
  | v :: rest, j => (seq ++ natStr j, v) :: seqPairs seq rest (j + 1)

theorem writeSeqAttrs_tag (seq : String) :
    ∀ (ls : List String) (j : ℕ) (e : Dom),
      (writeSeqAttrs seq ls j e).tag = e.tag := by
  intro ls
  induction ls with
  | nil => intro j e; rfl
  | cons v rest ih =>
    intro j e
    show (writeSeqAttrs seq rest (j + 1) _).tag = e.tag
    rw [ih]
    rfl

theorem seqPairs_length (seq : String) :
    ∀ (ls : List String) (j : ℕ), (seqPairs seq ls j).length = ls.length := by
  intro ls
  induction ls with
  | nil => intro j; rfl
  | cons v rest ih => intro j; simp [seqPairs, ih]

theorem writeSeqAttrs_attrs (seq : String) :
    ∀ (ls : List String) (j : ℕ) (e : Dom),
      (∀ i : ℕ, j ≤ i → e.attrs.any (fun kv => kv.1 == seq ++ natStr i) = false) →
      (writeSeqAttrs seq ls j e).attrs = e.attrs ++ seqPairs seq ls j := by
  intro ls
  induction ls with
  | nil => intro j e _; simp [writeSeqAttrs, seqPairs]
  | cons v rest ih =>
    intro j e hfresh
    show (writeSeqAttrs seq rest (j + 1) (e.setAttr (seq ++ natStr j) v)).attrs = _
    have hnot : e.attrs.any (fun kv => kv.1 == seq ++ natStr j) = false :=
      hfresh j (le_refl j)
    have hset : (e.setAttr (seq ++ natStr j) v).attrs =
        e.attrs ++ [(seq ++ natStr j, v)] := by
      unfold Dom.setAttr
      rw [hnot]
      simp
    have hfresh' : ∀ i : ℕ, j + 1 ≤ i →
        (e.setAttr (seq ++ natStr j) v).attrs.any
          (fun kv => kv.1 == seq ++ natStr i) = false := by
      intro i hi
      rw [hset, List.any_append, hfresh i (by omega)]
      simp only [List.any_cons, List.any_nil, Bool.or_false, Bool.false_or]
      exact beq_eq_false_iff_ne.mpr (fun he => by
        have := key_inj seq j i he
        omega)
    rw [ih (j + 1) _ hfresh', hset, List.append_assoc]
    rfl

/-- The element `folioSequentialsToXml` builds for one hash entry. -/
def mkFolioChild (seq typeTag t : String) (ls : List String) : Dom :=
  writeSeqAttrs seq ls 1 (Dom.mk typeTag [("title", t)] [])

theorem folioSequentialsToXml_eq (hash : List (String × List String))
    (seq typeTag : String) :
    folioSequentialsToXml hash seq typeTag =
      hash.map (fun kv => mkFolioChild seq typeTag kv.1 kv.2) := rfl

theorem mkFolioChild_attrs (seq typeTag t : String) (ls : List String)
    (hsep : ∀ i : ℕ, seq ++ natStr i ≠ "title") :
    (mkFolioChild seq typeTag t ls).attrs =
      ("title", t) :: seqPairs seq ls 1 := by
  unfold mkFolioChild
  rw [writeSeqAttrs_attrs seq ls 1 _ ?_]
  · rfl
  · intro i _
    simp only [List.any_cons, List.any_nil, Bool.or_false]
    exact beq_eq_false_iff_ne.mpr (fun he => hsep i he.symm)

theorem find_seqPairs (seq : String) :
    ∀ (ls : List String) (j d : ℕ),
      (seqPairs seq ls j).find? (fun kv => kv.1 == seq ++ natStr (j + d)) =
        (ls.get? d).map (fun v => (seq ++ natStr (j + d), v)) := by
  intro ls
  induction ls with
  | nil => intro j d; simp [seqPairs]
  | cons v rest ih =>
    intro j d
    show ((seq ++ natStr j, v) :: seqPairs seq rest (j + 1)).find? _ = _
    rw [List.find?_cons]
    cases d with
    | zero =>
      have : ((seq ++ natStr j == seq ++ natStr (j + 0))) = true := by
        simp
      rw [this]
      simp
    | succ d' =>
      have : ((seq ++ natStr j == seq ++ natStr (j + (d' + 1)))) = false := by
        exact beq_eq_false_iff_ne.mpr (fun he => by
          have := key_inj seq j (j + (d' + 1)) he
          omega)
      rw [this]
      have harg : j + (d' + 1) = (j + 1) + d' := by omega
      rw [harg, ih (j + 1) d']
      simp

theorem mkFolioChild_getAttr_title (seq typeTag t : String) (ls : List String)
    (hsep : ∀ i : ℕ, seq ++ natStr i ≠ "title") :
    (mkFolioChild seq typeTag t ls).getAttr "title" = some t := by
  unfold Dom.getAttr
  rw [mkFolioChild_attrs seq typeTag t ls hsep, List.find?_cons]
  have : (("title" : String) == "title") = true := by simp
  rw [this]
  rfl

theorem mkFolioChild_getAttr_seq (seq typeTag t : String) (ls : List String)
    (hsep : ∀ i : ℕ, seq ++ natStr i ≠ "title") (d : ℕ) :
    (mkFolioChild seq typeTag t ls).getAttr (seq ++ natStr (1 + d)) =
      ls.get? d := by
  unfold Dom.getAttr
  rw [mkFolioChild_attrs seq typeTag t ls hsep, List.find?_cons]
  have h1 : (("title" : String) == seq ++ natStr (1 + d)) = false :=
    beq_eq_false_iff_ne.mpr (fun he => hsep (1 + d) he.symm)
  rw [h1, find_seqPairs seq ls 1 d]
  cases ls.get? d <;> rfl

theorem readSeqAux_mkFolioChild (seq typeTag t : String) (ls : List String)
    (hsep : ∀ i : ℕ, seq ++ natStr i ≠ "title") :
    ∀ (f d : ℕ), ls.length + 1 - d ≤ f →
      readSeqAux (mkFolioChild seq typeTag t ls) seq f (1 + d) = ls.drop d := by
  intro f
  induction f with
  | zero =>
    intro d hd
    have : ls.length ≤ d := by omega
    rw [List.drop_eq_nil_of_le this]
    rfl
  | succ f ih =>
    intro d hd
    show (match (mkFolioChild seq typeTag t ls).getAttr (seq ++ natStr (1 + d)) with
      | some v => v :: readSeqAux (mkFolioChild seq typeTag t ls) seq f (1 + d + 1)
      | none => []) = ls.drop d
    rw [mkFolioChild_getAttr_seq seq typeTag t ls hsep d]
    cases hget : ls.get? d with
    | some v =>
      simp only
      have hlt : d < ls.length := by
        rw [List.get?_eq_getElem?] at hget
        exact (List.getElem?_eq_some.mp hget).1
      have hv : ls[d] = v := by
        rw [List.get?_eq_getElem?] at hget
        exact (List.getElem?_eq_some.mp hget).2
      have harg : 1 + d + 1 = 1 + (d + 1) := by omega
      rw [harg, ih (d + 1) (by omega)]
      rw [List.drop_eq_getElem_cons hlt, hv]
    | none =>
      simp only
      have : ls.length ≤ d := List.get?_eq_none.mp hget
      rw [List.drop_eq_nil_of_le this]

theorem readFolioSeq_mkFolioChild (seq typeTag t : String) (ls : List String)
    (hsep : ∀ i : ℕ, seq ++ natStr i ≠ "title") :
    readFolioSeq (mkFolioChild seq typeTag t ls) seq = ls := by
  unfold readFolioSeq
  have hlen : (mkFolioChild seq typeTag t ls).attrs.length = ls.length + 1 := by
    rw [mkFolioChild_attrs seq typeTag t ls hsep]
    simp [seqPairs_length]
  rw [hlen]
  have h0 : (1 : ℕ) = 1 + 0 := rfl
  rw [h0, readSeqAux_mkFolioChild seq typeTag t ls hsep (ls.length + 1 + 1) 0
    (by omega)]
  rfl

theorem foldl_insert_fresh (seq typeTag : String)
    (hsep : ∀ i : ℕ, seq ++ natStr i ≠ "title") :
    ∀ (hash acc : List (String × List String)),
      (hash.map Prod.fst).Nodup →
      (∀ k, k ∈ hash.map Prod.fst → acc.any (fun kv => kv.1 == k) = false) →
      (hash.map (fun kv => mkFolioChild seq typeTag kv.1 kv.2)).foldl
        (fun h' fs => insertHash h' (fs.attrOr "title" "") (readFolioSeq fs seq))
        acc = acc ++ hash := by
  intro hash
  induction hash with
  | nil => intro acc _ _; simp
  | cons kv rest ih =>
    obtain ⟨t, ls⟩ := kv
    intro acc hnodup hfresh
    simp only [List.map_cons, List.foldl_cons]
    have htitle : (mkFolioChild seq typeTag t ls).attrOr "title" "" = t := by
      unfold Dom.attrOr
      rw [mkFolioChild_getAttr_title seq typeTag t ls hsep]
      rfl
    have hread : readFolioSeq (mkFolioChild seq typeTag t ls) seq = ls :=
      readFolioSeq_mkFolioChild seq typeTag t ls hsep
    rw [htitle, hread]
    have hins : insertHash acc t ls = acc ++ [(t, ls)] := by
      unfold insertHash
      rw [hfresh t (by simp)]
      simp
    rw [hins]
    have hnodup' : (rest.map Prod.fst).Nodup := (List.nodup_cons.mp hnodup).2
    have ht_not : t ∉ rest.map Prod.fst := (List.nodup_cons.mp hnodup).1
    have hfresh' : ∀ k, k ∈ rest.map Prod.fst →
        (acc ++ [(t, ls)]).any (fun kv => kv.1 == k) = false := by
      intro k hk
      rw [List.any_append, hfresh k (by simp [hk])]
      simp only [List.any_cons, List.any_nil, Bool.or_false, Bool.false_or]
      exact beq_eq_false_iff_ne.mpr (fun he => ht_not (he ▸ hk))
    rw [ih (acc ++ [(t, ls)]) hnodup' hfresh']
    simp

/-- C4: serializing any titles-to-string-lists hash with
`Diagram::folioSequentialsToXml` (one child element per title, carrying
attributes `seq`+1 ... `seq`+N for the N list entries) and reading the
produced XML back with `Diagram::folioSequentialsFromXml` with the same
element type and attribute name stem yields exactly the original hash. -/
theorem C4_folioSequentials_roundtrip (hash : List (String × List String))
    (seq typeTag folioSeqTag autonumTag : String)
    (hnodup : (hash.map Prod.fst).Nodup)
    (hsep : ∀ i : ℕ, seq ++ natStr i ≠ "title") :
    folioSequentialsFromXml
      (Dom.mk "diagram" []
        [Dom.mk autonumTag []
          [Dom.mk folioSeqTag [] (folioSequentialsToXml hash seq typeTag)]])
      [] folioSeqTag seq typeTag autonumTag = hash := by
  unfold folioSequentialsFromXml findInDomElement
  simp only [List.filter_cons, List.filter_nil, beq_self_eq_true, if_true,
    List.flatMap_cons, List.flatMap_nil, List.append_nil, List.foldl_cons,
    List.foldl_nil]
  have hfilter : (folioSequentialsToXml hash seq typeTag).filter
      (fun c => c.tag == typeTag) = folioSequentialsToXml hash seq typeTag := by
    apply List.filter_eq_self.mpr
    intro x hx
    rw [folioSequentialsToXml_eq] at hx
    obtain ⟨kv, _, hkv⟩ := List.mem_map.mp hx
    rw [← hkv]
    have : (mkFolioChild seq typeTag kv.1 kv.2).tag = typeTag :=
      writeSeqAttrs_tag seq kv.2 1 _
    simp [this]
  rw [hfilter, folioSequentialsToXml_eq]
  rw [foldl_insert_fresh seq typeTag hsep hash [] hnodup (by intro k _; rfl)]
  simp

theorem seq_key_ne_title (seq : String) (h : 5 ≤ seq.length) (i : ℕ) :
    seq ++ natStr i ≠ "title" := by
  intro he
  have hlen := congrArg String.length he
  rw [String.length_append] at hlen
  have h1 := natStr_length_pos i
  have h2 : ("title" : String).length = 5 := by decide
  omega

theorem C4_folioSequentials_roundtrip_witness :
    (([("a", ["x", "y"]), ("b", [])] :
        List (String × List String)).map Prod.fst).Nodup
    ∧ folioSequentialsFromXml
        (Dom.mk "diagram" []
          [Dom.mk "elementautonumfoliosequentials" []
            [Dom.mk "elementunitfolioseq" []
              (folioSequentialsToXml [("a", ["x", "y"]), ("b", [])]
                "sequf_" "unitfolioseq")]])
        [] "elementunitfolioseq" "sequf_" "unitfolioseq"
        "elementautonumfoliosequentials" = [("a", ["x", "y"]), ("b", [])] :=
  ⟨by decide,
    C4_folioSequentials_roundtrip [("a", ["x", "y"]), ("b", [])]
      "sequf_" "unitfolioseq" "elementunitfolioseq"
      "elementautonumfoliosequentials" (by decide)
      (seq_key_ne_title "sequf_" (by decide))⟩

end Folio

namespace ZDepth

/-- The graphic item kinds relevant to `Diagram::changeZValue`. -/
inductive ItemKind
  | element
  | shape
  | image
  | conductor
  | text
  | terminal
deriving DecidableEq

/-- A scene item as seen by `Diagram::changeZValue`: its kind, its
selection state and its z-value. -/
structure ZItem where
  kind : ItemKind
  selected : Bool
  z : ℚ
deriving DecidableEq

/-- `QET::DepthOption`. -/
inductive DepthOption
  | raise
  | lower
  | bringForward
  | sendBackward
deriving DecidableEq

/-- Modelled from the spec: `DiagramContent::items` is not among the
sources under verification; with flags
`SelectedOnly | Elements | Shapes | Images` it returns the selected
elements, shapes and images of the diagram (all of which are
`QGraphicsObject`s, so `toGraphicsObject` keeps them). -/
def eligibleKind : ItemKind → Bool
  | .element => true
  | .shape => true
  | .image => true
  | _ => false

/-- An item eligible for a Raise/Lower depth change: selected, of an
eligible kind, and strictly below `Terminal::Z - 2`. -/
def raiseLowerEligible (tz : ℚ) (it : ZItem) : Bool :=
  it.selected && eligibleKind it.kind && decide (it.z < tz - 2)

/-- Embedding of the command-building part of `Diagram::changeZValue`
(diagram.cpp:1849-1915): one `QPropertyUndoCommand` child per affected
item, represented as (item position in the scene list, new z-value).
`tz` stands for `Terminal::Z`. -/
def zCommands (opt : DepthOption) (tz : ℚ) (items : List ZItem) :
    List (ℕ × ℚ) :=
  let list := items.enum.filter
    (fun p => p.2.selected && eligibleKind p.2.kind)
  let below := (items.map (·.z)).filter (fun z => decide (z < tz - 2))
  let maxz := below.foldl max 0
  let minz := below.foldl min 0
  match opt with
  | .raise => list.filterMap
      (fun p => if p.2.z < tz - 2 then some (p.1, p.2.z + 1) else none)
  | .lower => list.filterMap
      (fun p => if p.2.z < tz - 2 then some (p.1, p.2.z - 1) else none)
  | .bringForward => list.map (fun p => (p.1, maxz + 1))
  | .sendBackward => list.map (fun p => (p.1, minz - 1))

/-- Pushing the parent command on the undo stack performs every child
`QPropertyUndoCommand`: each targeted item gets its new z-value. -/
def applyZ (cmds : List (ℕ × ℚ)) (items : List ZItem) : List ZItem :=
  items.enum.map
    (fun p =>
      match cmds.find? (fun c => c.1 == p.1) with
      | some c => { p.2 with z := c.2 }
      | none => p.2)

/-- Embedding of `Diagram::changeZValue`: build the child commands; when
there is at least one child push the parent command (performing all
children), otherwise delete it and push nothing.  Returns the resulting
scene items and the number of commands pushed on the undo stack. -/
def changeZValue (opt : DepthOption) (tz : ℚ) (items : List ZItem) :
    List ZItem × ℕ :=
  let cmds := zCommands opt tz items
  if cmds.isEmpty then (items, 0) else (applyZ cmds items, 1)

theorem find_none_of_lt {α β : Type} (P : α → Bool) (g : α → β) :
    ∀ (l : List α) (k j : ℕ), j < k →
      ((List.enumFrom k l).filterMap
          (fun p => if P p.2 then some (p.1, g p.2) else none)).find?
        (fun c => c.1 == j) = none := by
  intro l
  induction l with
  | nil => intro k j _; rfl
  | cons y rest ih =>
    intro k j hj
    show ((((k, y) : ℕ × α) :: List.enumFrom (k + 1) rest).filterMap _).find? _ = none
    rw [List.filterMap_cons]
    by_cases hy : P y
    · simp only [hy, if_true]
      rw [List.find?_cons]
      have : ((k : ℕ) == j) = false := beq_eq_false_iff_ne.mpr (by omega)
      rw [this]
      exact ih (k + 1) j (by omega)
    · simp only [hy, if_false]
      exact ih (k + 1) j (by omega)

theorem find_filterMap_enumFrom {α β : Type} (P : α → Bool) (g : α → β) :
    ∀ (l : List α) (k i : ℕ) (x : α), l.get? i = some x →
      ((List.enumFrom k l).filterMap
          (fun p => if P p.2 then some (p.1, g p.2) else none)).find?
        (fun c => c.1 == k + i) =
      (if P x then some (k + i, g x) else none) := by
  intro l
  induction l with
  | nil => intro k i x h; simp at h
  | cons y rest ih =>
    intro k i x h
    show ((((k, y) : ℕ × α) :: List.enumFrom (k + 1) rest).filterMap _).find? _ = _
    rw [List.filterMap_cons]
    cases i with
    | zero =>
      have hx : x = y := by
        simp at h
        exact h.symm
      subst hx
      by_cases hy : P x
      · simp only [hy, if_true]
        rw [List.find?_cons]
        have : ((k : ℕ) == k + 0) = true := by simp
        rw [this]
        simp
      · simp only [hy, if_false]
        exact find_none_of_lt P g rest (k + 1) (k + 0) (by omega)
    | succ i' =>
      have h' : rest.get? i' = some x := by simpa using h
      have harith : k + (i' + 1) = (k + 1) + i' := by omega
      by_cases hy : P y
      · simp only [hy, if_true]
        rw [List.find?_cons]
        have : ((k : ℕ) == k + (i' + 1)) = false := beq_eq_false_iff_ne.mpr (by omega)
        rw [this, harith]
        exact ih (k + 1) i' x h'
      · simp only [hy, if_false]
        rw [harith]
        exact ih (k + 1) i' x h'

theorem raiseLower_cmds (opt : DepthOption) (tz : ℚ) (items : List ZItem)
    (hopt : opt = DepthOption.raise ∨ opt = DepthOption.lower) :
    zCommands opt tz items =
      items.enum.filterMap
        (fun p => if raiseLowerEligible tz p.2 then
            some (p.1, p.2.z + (if opt = DepthOption.raise then 1 else -1))
          else none) := by
  have key : ∀ (delta : ℚ),
      (items.enum.filter (fun p => p.2.selected && eligibleKind p.2.kind)).filterMap
        (fun p => if p.2.z < tz - 2 then some (p.1, p.2.z + delta) else none) =
      items.enum.filterMap
        (fun p => if raiseLowerEligible tz p.2 then some (p.1, p.2.z + delta)
          else none) := by
    intro delta
    rw [List.filterMap_filter]
    congr 1
    funext p
    unfold raiseLowerEligible
    by_cases h1 : p.2.selected && eligibleKind p.2.kind
    · by_cases h2 : p.2.z < tz - 2 <;> simp [h1, h2]
    · simp [h1]
  rcases hopt with h | h <;> subst h
  · show (items.enum.filter _).filterMap _ = _
    rw [key 1]
    simp
  · show (items.enum.filter _).filterMap _ = _
    have k2 := key (-1)
    simp only [← sub_eq_add_neg] at k2
    rw [k2]
    simp [sub_eq_add_neg]

theorem applyZ_get (cmds : List (ℕ × ℚ)) (items : List ZItem) (i : ℕ)
    (it : ZItem) (h : items.get? i = some it) :
    (applyZ cmds items).get? i =
      some (match cmds.find? (fun c => c.1 == i) with
        | some c => { it with z := c.2 }
        | none => it) := by
  unfold applyZ
  rw [List.get?_map]
  have : items.enum.get? i = some (i, it) := by
    show (List.enumFrom 0 items).get? i = some (i, it)
    rw [List.enumFrom_get?, h]
    simp
  rw [this]
  rfl

theorem zCommands_empty_iff (opt : DepthOption) (tz : ℚ) (items : List ZItem)
    (hopt : opt = DepthOption.raise ∨ opt = DepthOption.lower) :
    zCommands opt tz items = [] ↔
      ∀ it ∈ items, raiseLowerEligible tz it = false := by
  rw [raiseLower_cmds opt tz items hopt, List.filterMap_eq_nil_iff]
  constructor
  · intro h it hit
    have : it ∈ items.enum.map Prod.snd := by rw [List.enum_map_snd]; exact hit
    obtain ⟨p, hp, hpit⟩ := List.mem_map.mp this
    have := h p hp
    by_cases he : raiseLowerEligible tz p.2
    · rw [he] at this; simp at this
    · rw [← hpit]; simpa using he
  · intro h p hp
    have : p.2 ∈ items := by
      rw [← List.enum_map_snd items]
      exact List.mem_map.mpr ⟨p, hp, rfl⟩
    rw [h p.2 this]
    simp

theorem find_zCommands (opt : DepthOption) (tz : ℚ) (items : List ZItem)
    (hopt : opt = DepthOption.raise ∨ opt = DepthOption.lower)
    (i : ℕ) (it : ZItem) (h : items.get? i = some it) :
    (zCommands opt tz items).find? (fun c => c.1 == i) =
      (if raiseLowerEligible tz it then
        some (i, it.z + (if opt = DepthOption.raise then 1 else -1))
      else none) := by
  rw [raiseLower_cmds opt tz items hopt]
  have hpred : (fun c : ℕ × ℚ => c.1 == i) = (fun c : ℕ × ℚ => c.1 == 0 + i) := by
    funext c
    simp
  rw [hpred]
  have := find_filterMap_enumFrom (raiseLowerEligible tz)
    (fun x => x.z + (if opt = DepthOption.raise then 1 else -1)) items 0 i it h
  simpa using this

/-- C5: with option Raise or Lower, `Diagram::changeZValue` changes the
z-value only of selected elements, shapes and images whose z-value is
strictly below `Terminal::Z - 2` (each by +1 resp. -1, through the
children of one command pushed on the undo stack, so at most one push),
leaves every other item unchanged, and pushes nothing when no eligible
item exists. -/
theorem C5_changeZValue (opt : DepthOption) (tz : ℚ) (items : List ZItem)
    (hopt : opt = DepthOption.raise ∨ opt = DepthOption.lower) :
    (changeZValue opt tz items).2 ≤ 1
    ∧ ((changeZValue opt tz items).2 = 0 ↔
        ∀ it ∈ items, raiseLowerEligible tz it = false)
    ∧ (∀ i it, items.get? i = some it → raiseLowerEligible tz it = false →
        (changeZValue opt tz items).1.get? i = some it)
    ∧ (∀ i it, items.get? i = some it → raiseLowerEligible tz it = true →
        (changeZValue opt tz items).1.get? i =
          some { it with
            z := it.z + (if opt = DepthOption.raise then 1 else -1) }) := by
  unfold changeZValue
  by_cases hemp : (zCommands opt tz items).isEmpty
  · have hnil : zCommands opt tz items = [] := by
      simpa [List.isEmpty_iff] using hemp
    rw [hnil]
    simp only [List.isEmpty_nil, if_true]
    refine ⟨by omega, ?_, ?_, ?_⟩
    · simpa using (zCommands_empty_iff opt tz items hopt).mp hnil
    · intro i it hget _
      exact hget
    · intro i it hget helig
      exfalso
      have hall := (zCommands_empty_iff opt tz items hopt).mp hnil
      have : it ∈ items := List.get?_mem hget
      rw [hall it this] at helig
      exact Bool.false_ne_true helig
  · have hne : (zCommands opt tz items).isEmpty = false := by
      simpa using hemp
    simp only [hne, Bool.false_eq_true, if_false]
    refine ⟨by omega, ?_, ?_, ?_⟩
    · constructor
      · intro h; omega
      · intro hall
        exfalso
        have : zCommands opt tz items = [] :=
          (zCommands_empty_iff opt tz items hopt).mpr hall
        rw [this] at hne
        simp at hne
    · intro i it hget helig
      rw [applyZ_get _ items i it hget,
        find_zCommands opt tz items hopt i it hget, helig]
      simp
    · intro i it hget helig
      rw [applyZ_get _ items i it hget,
        find_zCommands opt tz items hopt i it hget, helig]
      simp

theorem C5_changeZValue_witness :
    (DepthOption.raise = DepthOption.raise ∨
      DepthOption.raise = DepthOption.lower)
    ∧ ((changeZValue DepthOption.raise 1000
          [⟨ItemKind.element, true, 0⟩, ⟨ItemKind.conductor, true, 0⟩]).2 ≤ 1
    ∧ ((changeZValue DepthOption.raise 1000
          [⟨ItemKind.element, true, 0⟩, ⟨ItemKind.conductor, true, 0⟩]).2 = 0 ↔
        ∀ it ∈ [(⟨ItemKind.element, true, 0⟩ : ZItem),
            ⟨ItemKind.conductor, true, 0⟩],
          raiseLowerEligible 1000 it = false)
    ∧ (∀ i it,
        [(⟨ItemKind.element, true, 0⟩ : ZItem),
            ⟨ItemKind.conductor, true, 0⟩].get? i = some it →
        raiseLowerEligible 1000 it = false →
        (changeZValue DepthOption.raise 1000
          [⟨ItemKind.element, true, 0⟩, ⟨ItemKind.conductor, true, 0⟩]).1.get? i =
          some it)
    ∧ (∀ i it,
        [(⟨ItemKind.element, true, 0⟩ : ZItem),
            ⟨ItemKind.conductor, true, 0⟩].get? i = some it →
        raiseLowerEligible 1000 it = true →
        (changeZValue DepthOption.raise 1000
          [⟨ItemKind.element, true, 0⟩, ⟨ItemKind.conductor, true, 0⟩]).1.get? i =
          some { it with
            z := it.z +
              (if DepthOption.raise = DepthOption.raise then 1 else -1) })) :=
  ⟨Or.inl rfl,
    C5_changeZValue DepthOption.raise 1000
      [⟨ItemKind.element, true, 0⟩, ⟨ItemKind.conductor, true, 0⟩]
      (Or.inl rfl)⟩

end ZDepth

namespace ItemLife

/-- The scene items relevant to `Diagram::addItem` / `removeItem`:
elements, conductors (holding the identities of their two terminals),
and any other graphics item. -/
inductive Item9
  | element (id : ℕ)
  | conductor (id t1 t2 : ℕ)
  | other (id : ℕ)
deriving DecidableEq

/-- The state touched by `addItem`/`removeItem`: the read-only flag of
the project, the scene item list, the element database, and the
terminal-conductor registrations (pairs of a terminal identity and a
conductor identity). -/
structure SceneState where
  readOnly : Bool
  scene : List Item9
  dbElements : List ℕ
  regs : List (ℕ × ℕ)
deriving DecidableEq

/-- Embedding of `Diagram::addItem` (diagram.cpp:1607-1630).  The
`item` argument is a possibly-null pointer (`none` = null).  The guard
`!item || isReadOnly() || item->scene() == this` makes the call a no-op;
otherwise the item joins the scene, an element is recorded in the
project database, and a conductor is registered with both of its
terminals (`Terminal::addConductor`, modelled from the spec as adding
the conductor to the terminal's registrations since `terminal.cpp` is
not among the sources). -/
def addItem (s : SceneState) (item : Option Item9) : SceneState :=
  match item with
  | none => s
  | some it =>
    if s.readOnly || s.scene.contains it then s
    else
      let s' := { s with scene := s.scene ++ [it] }
      match it with
      | .element id => { s' with dbElements := s'.dbElements ++ [id] }
      | .conductor id t1 t2 => { s' with regs := s'.regs ++ [(t1, id), (t2, id)] }
      | .other _ => s'

/-- Embedding of `Diagram::removeItem` (diagram.cpp:1638-1662): no-op
on a null item or a read-only project; otherwise an element leaves the
project database, a conductor is unregistered from both of its
terminals (`Terminal::removeConductor`, modelled from the spec), and
the item leaves the scene. -/
def removeItem (s : SceneState) (item : Option Item9) : SceneState :=
  match item with
  | none => s
  | some it =>
    if s.readOnly then s
    else
      let s' := match it with
        | .element id => { s with dbElements := s.dbElements.erase id }
        | .conductor id t1 t2 =>
          { s with regs := (s.regs.erase (t1, id)).erase (t2, id) }
        | .other _ => s
      { s' with scene := s'.scene.erase it }

/-- C9: on a read-only diagram `addItem` and `removeItem` leave the
state (scene, database and terminal-conductor registrations) unchanged;
`addItem` is also a no-op on a null item or an item already in the
scene; on a writable diagram adding a conductor registers it with both
of its terminals and removing it unregisters it from both. -/
theorem C9_addItem_removeItem (s : SceneState) (item : Option Item9)
    (id t1 t2 : ℕ) :
    (s.readOnly = true → addItem s item = s ∧ removeItem s item = s)
    ∧ addItem s none = s
    ∧ (∀ it, item = some it → it ∈ s.scene → addItem s item = s)
    ∧ (s.readOnly = false → Item9.conductor id t1 t2 ∉ s.scene →
        (t1, id) ∈ (addItem s (some (Item9.conductor id t1 t2))).regs
        ∧ (t2, id) ∈ (addItem s (some (Item9.conductor id t1 t2))).regs
        ∧ Item9.conductor id t1 t2 ∈
            (addItem s (some (Item9.conductor id t1 t2))).scene)
    ∧ (s.readOnly = false →
        (removeItem s (some (Item9.conductor id t1 t2))).regs =
          (s.regs.erase (t1, id)).erase (t2, id)) := by
  refine ⟨?_, rfl, ?_, ?_, ?_⟩
  · intro hro
    constructor
    · cases item with
      | none => rfl
      | some it =>
        show (if s.readOnly || s.scene.contains it then s else _) = s
        rw [hro]
        simp
    · cases item with
      | none => rfl
      | some it =>
        show (if s.readOnly then s else _) = s
        rw [hro]
        simp
  · intro it hit hmem
    subst hit
    show (if s.readOnly || s.scene.contains it then s else _) = s
    have : s.scene.contains it = true := List.elem_eq_true_of_mem hmem
    rw [this]
    simp
  · intro hro hnot
    have hcond : (s.readOnly || s.scene.contains (Item9.conductor id t1 t2)) = false := by
      rw [hro]
      simp only [Bool.false_or]
      by_cases h : s.scene.contains (Item9.conductor id t1 t2)
      · exact absurd (List.mem_of_elem_eq_true h) hnot
      · simpa using h
    have haddc : addItem s (some (Item9.conductor id t1 t2)) =
        { s with scene := s.scene ++ [Item9.conductor id t1 t2],
                 regs := s.regs ++ [(t1, id), (t2, id)] } := by
      show (if s.readOnly || s.scene.contains _ then s else _) = _
      rw [hcond]
      simp
    rw [haddc]
    refine ⟨by simp, by simp, by simp⟩
  · intro hro
    show (if s.readOnly then s else _).regs = _
    rw [hro]
    simp

theorem C9_addItem_removeItem_witness :
    ((SceneState.mk true [] [] []).readOnly = true →
        addItem (SceneState.mk true [] [] []) (some (Item9.element 1)) =
          SceneState.mk true [] [] []
        ∧ removeItem (SceneState.mk true [] [] []) (some (Item9.element 1)) =
          SceneState.mk true [] [] [])
    ∧ addItem (SceneState.mk true [] [] []) none = SceneState.mk true [] [] []
    ∧ (∀ it, some (Item9.element 1) = some it →
        it ∈ (SceneState.mk true [] [] []).scene →
        addItem (SceneState.mk true [] [] []) (some (Item9.element 1)) =
          SceneState.mk true [] [] [])
    ∧ ((SceneState.mk true [] [] []).readOnly = false →
        Item9.conductor 5 2 3 ∉ (SceneState.mk true [] [] []).scene →
        (2, 5) ∈ (addItem (SceneState.mk true [] [] [])
            (some (Item9.conductor 5 2 3))).regs
        ∧ (3, 5) ∈ (addItem (SceneState.mk true [] [] [])
            (some (Item9.conductor 5 2 3))).regs
        ∧ Item9.conductor 5 2 3 ∈ (addItem (SceneState.mk true [] [] [])
            (some (Item9.conductor 5 2 3))).scene)
    ∧ ((SceneState.mk true [] [] []).readOnly = false →
        (removeItem (SceneState.mk true [] [] [])
            (some (Item9.conductor 5 2 3))).regs =
          (((SceneState.mk true [] [] []).regs.erase (2, 5)).erase (3, 5))) :=
  C9_addItem_removeItem (SceneState.mk true [] [] [])
    (some (Item9.element 1)) 5 2 3

end ItemLife

namespace DiagXml

open QStr Folio

/-- A scene item, discriminated as in the `type()` switch of
`Diagram::toXml` (diagram.cpp:909-965).  A conductor records the
identities of the parent elements of its two terminals
(`terminal1->parentItem()`, `terminal2->parentItem()`); conductors have
no own selection state in the export filter. -/
inductive SItem
  | element (eid : ℕ) (selected : Bool)
  | conductor (cid parent1 parent2 : ℕ)
  | text (tid : ℕ) (selected : Bool)
  | image (iid : ℕ) (selected : Bool)
  | shape (sid : ℕ) (selected : Bool)
  | table (tbid : ℕ) (selected : Bool)
  | strip (stid : ℕ) (selected : Bool)
deriving DecidableEq

/-- `cond->terminalN->parentItem()->isSelected()`: whether the element
with identity `eid` is a selected element of the scene. -/
def elementSelected (items : List SItem) (eid : ℕ) : Bool :=
  items.any (fun it =>
    match it with
    | .element e sel => e == eid && sel
    | _ => false)

/-- The `list_elements` vector of `Diagram::toXml`: elements are
exported when the whole content is exported or they are selected. -/
def listElements (whole : Bool) (items : List SItem) : List SItem :=
  items.filter (fun it =>
    match it with
    | .element _ sel => whole || sel
    | _ => false)

/-- The `list_conductors` vector of `Diagram::toXml`: a conductor is
exported when the whole content is exported, or when the parent
elements of both of its terminals are selected. -/
def listConductors (whole : Bool) (items : List SItem) : List SItem :=
  items.filter (fun it =>
    match it with
    | .conductor _ p1 p2 =>
      whole || (elementSelected items p1 && elementSelected items p2)
    | _ => false)

/-- The `list_texts` vector of `Diagram::toXml`. -/
def listTexts (whole : Bool) (items : List SItem) : List SItem :=
  items.filter (fun it =>
    match it with
    | .text _ sel => whole || sel
    | _ => false)

/-- The `list_images` vector of `Diagram::toXml`. -/
def listImages (whole : Bool) (items : List SItem) : List SItem :=
  items.filter (fun it =>
    match it with
    | .image _ sel => whole || sel
    | _ => false)

/-- The `list_shapes` vector of `Diagram::toXml`. -/
def listShapes (whole : Bool) (items : List SItem) : List SItem :=
  items.filter (fun it =>
    match it with
    | .shape _ sel => whole || sel
    | _ => false)

/-- The `table_vector` of `Diagram::toXml`. -/
def listTables (whole : Bool) (items : List SItem) : List SItem :=
  items.filter (fun it =>
    match it with
    | .table _ sel => whole || sel
    | _ => false)

/-- The `strip_vector` of `Diagram::toXml`. -/
def listStrips (whole : Bool) (items : List SItem) : List SItem :=
  items.filter (fun it =>
    match it with
    | .strip _ sel => whole || sel
    | _ => false)

/-- Modelled from the spec: the per-item serializers (`Element::toXml`,
`Conductor::toXml`, ...) are not among the sources under verification;
each exported item becomes one child element carrying its identity (and
for a conductor the terminal references `element1`/`element2`). -/
def itemToXml : SItem → Dom
  | .element e _ => Dom.mk "element" [("uuid", natStr e)] []
  | .conductor c p1 p2 =>
    Dom.mk "conductor"
      [("id", natStr c), ("element1", natStr p1), ("element2", natStr p2)] []
  | .text t _ => Dom.mk "input" [("id", natStr t)] []
  | .image i _ => Dom.mk "image" [("id", natStr i)] []
  | .shape s _ => Dom.mk "shape" [("id", natStr s)] []
  | .table t _ => Dom.mk "table" [("id", natStr t)] []
  | .strip s _ => Dom.mk "terminalstrip" [("id", natStr s)] []

/-- The per-type item sections appended to the root by `Diagram::toXml`:
a section element is created only when its vector is non-empty. -/
def itemChildren (whole : Bool) (items : List SItem) : List Dom :=
  (if (listElements whole items).isEmpty then []
    else [Dom.mk "elements" [] ((listElements whole items).map itemToXml)])
  ++ (if (listConductors whole items).isEmpty then []
    else [Dom.mk "conductors" [] ((listConductors whole items).map itemToXml)])
  ++ (if (listTexts whole items).isEmpty then []
    else [Dom.mk "inputs" [] ((listTexts whole items).map itemToXml)])
  ++ (if (listImages whole items).isEmpty then []
    else [Dom.mk "images" [] ((listImages whole items).map itemToXml)])
  ++ (if (listShapes whole items).isEmpty then []
    else [Dom.mk "shapes" [] ((listShapes whole items).map itemToXml)])
  ++ (if (listTables whole items).isEmpty then []
    else [Dom.mk "tables" [] ((listTables whole items).map itemToXml)])
  ++ (if (listStrips whole items).isEmpty then []
    else [Dom.mk "terminalstrips" [] ((listStrips whole items).map itemToXml)])

/-- The diagram state read and written by `Diagram::toXml` /
`Diagram::fromXml`: border/titleblock and default-conductor properties
(kept abstract as their serialized payloads, since
`BorderTitleBlock::*Xml` and `ConductorProperties::*Xml` are not among
the sources and are modelled from the spec as lossless), the conductor
autonum name, the two freeze flags, the six folio-sequential hashes and
the scene items. -/
structure DState where
  border : String
  defaultConductor : String
  conductorAutonum : String
  freezeNewElements : Bool
  freezeNewConductors : Bool
  elmtUnitFolio : List (String × List String)
  elmtTenFolio : List (String × List String)
  elmtHundredFolio : List (String × List String)
  cndUnitFolio : List (String × List String)
  cndTenFolio : List (String × List String)
  cndHundredFolio : List (String × List String)
  items : List SItem
deriving DecidableEq

def boolAttr (b : Bool) : String := if b then "true" else "false"

/-- The `elementautonumfoliosequentials` child written by
`Diagram::toXml` when at least one element folio-sequential hash is
non-empty (diagram.cpp:804-845). -/
def elmtFolioChildren (d : DState) : List Dom :=
  if d.elmtUnitFolio.isEmpty && d.elmtTenFolio.isEmpty
      && d.elmtHundredFolio.isEmpty then []
  else
    [Dom.mk "elementautonumfoliosequentials" []
      ((if d.elmtUnitFolio.isEmpty then []
        else [Dom.mk "elementunitfolioseq" []
          (folioSequentialsToXml d.elmtUnitFolio "sequf_" "unitfolioseq")])
      ++ (if d.elmtTenFolio.isEmpty then []
        else [Dom.mk "elementtenfolioseq" []
          (folioSequentialsToXml d.elmtTenFolio "seqtf_" "tenfolioseq")])
      ++ (if d.elmtHundredFolio.isEmpty then []
        else [Dom.mk "elementhundredfolioseq" []
          (folioSequentialsToXml d.elmtHundredFolio "seqhf_" "hundredfolioseq")]))]

/-- The `conductorautonumfoliosequentials` child written by
`Diagram::toXml` (diagram.cpp:846-887). -/
def cndFolioChildren (d : DState) : List Dom :=
  if d.cndUnitFolio.isEmpty && d.cndTenFolio.isEmpty
      && d.cndHundredFolio.isEmpty then []
  else
    [Dom.mk "conductorautonumfoliosequentials" []
      ((if d.cndUnitFolio.isEmpty then []
        else [Dom.mk "conductorunitfolioseq" []
          (folioSequentialsToXml d.cndUnitFolio "sequf_" "unitfolioseq")])
      ++ (if d.cndTenFolio.isEmpty then []
        else [Dom.mk "conductortenfolioseq" []
          (folioSequentialsToXml d.cndTenFolio "seqtf_" "tenfolioseq")])
      ++ (if d.cndHundredFolio.isEmpty then []
        else [Dom.mk "conductorhundredfolioseq" []
          (folioSequentialsToXml d.cndHundredFolio "seqhf_" "hundredfolioseq")]))]

/-- Embedding of `Diagram::toXml` (diagram.cpp:768-1027).  With
`whole = true` the root carries the border/titleblock payload, a
`defaultconductor` child, the conductor autonum name when non-empty,
the two freeze flags written as the strings `"true"`/`"false"`, and the
folio-sequential children; with `whole = false` it carries the source
project id instead.  In both cases the exported item sections follow. -/
def toXml (whole : Bool) (d : DState) : Dom :=
  if whole then
    let attrs0 := [("border", d.border)]
    let attrs1 := if d.conductorAutonum.isEmpty then attrs0
      else attrs0 ++ [("conductorAutonum", d.conductorAutonum)]
    let attrs2 := attrs1
      ++ [("freezeNewElement", boolAttr d.freezeNewElements),
          ("freezeNewConductor", boolAttr d.freezeNewConductors)]
    Dom.mk "diagram" attrs2
      ([Dom.mk "defaultconductor" [("properties", d.defaultConductor)] []]
        ++ elmtFolioChildren d ++ cndFolioChildren d
        ++ itemChildren whole d.items)
  else
    Dom.mk "diagram" [("projectId", natStr 0)] (itemChildren whole d.items)

def parseNat (s : String) : Option ℕ := digitsVal s.data

/-- Modelled from the spec: element loading
(`ElementFactory::createElement` + `Element::fromXml`, not among the
sources) succeeds when the child carries a well-formed identity;
elements whose description fails to load are deleted and skipped. -/
def parseElement (e : Dom) : Option SItem :=
  match e.getAttr "uuid" with
  | some s => (parseNat s).map (fun n => SItem.element n false)
  | none => none

/-- Modelled from the spec: conductor loading (`Conductor::valideXml`,
`findTerminal`, `Conductor::fromXml`) succeeds when both terminal
references resolve and differ; other conductors are silently skipped. -/
def parseConductor (e : Dom) : Option SItem :=
  match e.getAttr "id", e.getAttr "element1", e.getAttr "element2" with
  | some si, some s1, some s2 =>
    match parseNat si, parseNat s1, parseNat s2 with
    | some c, some p1, some p2 =>
      if p1 ≠ p2 then some (SItem.conductor c p1 p2) else none
    | _, _, _ => none
  | _, _, _ => none

/-- Modelled from the spec: loading of a simple item (text, image,
shape, table, terminal strip) from its child element. -/
def parseSimple (mk : ℕ → Bool → SItem) (e : Dom) : Option SItem :=
  match e.getAttr "id" with
  | some s => (parseNat s).map (fun n => mk n false)
  | none => none

/-- The items added to the scene by `Diagram::fromXml`
(diagram.cpp:1352-1470): elements, texts, images, shapes, conductors,
tables and terminal strips, each read from its section, with invalid
entries skipped. -/
def loadItems (root : Dom) : List SItem :=
  (findInDomElement root "elements" "element").filterMap parseElement
  ++ (findInDomElement root "inputs" "input").filterMap
      (parseSimple SItem.text)
  ++ (findInDomElement root "images" "image").filterMap
      (parseSimple SItem.image)
  ++ (findInDomElement root "shapes" "shape").filterMap
      (parseSimple SItem.shape)
  ++ (findInDomElement root "conductors" "conductor").filterMap parseConductor
  ++ (findInDomElement root "tables" "table").filterMap
      (parseSimple SItem.table)
  ++ (findInDomElement root "terminalstrips" "terminalstrip").filterMap
      (parseSimple SItem.strip)

/-- Embedding of `Diagram::fromXml` (diagram.cpp:1243-1531).  A root
whose tag name is not `diagram` is rejected before anything is read.
Otherwise, when `consider` holds the diagram properties are read (the
freeze flags through `QString::toInt` on the stored attribute text) and
the folio-sequential hashes are loaded; an empty root ends the import,
and otherwise the items are loaded and added to the scene.  The import
returns true on every root tagged `diagram`. -/
def fromXml (root : Dom) (consider : Bool) (d : DState) : Bool × DState :=
  if root.tag ≠ "diagram" then (false, d)
  else
    let d1 := if consider then
      { d with
        border := root.attrOr "border" "",
        defaultConductor :=
          match root.children.find? (fun c => c.tag == "defaultconductor") with
          | some e => e.attrOr "properties" d.defaultConductor
          | none => d.defaultConductor,
        conductorAutonum := root.attrOr "conductorAutonum" "",
        freezeNewElements :=
          qstringToInt (root.attrOr "freezeNewElement" "") != 0,
        freezeNewConductors :=
          qstringToInt (root.attrOr "freezeNewConductor" "") != 0,
        elmtUnitFolio := folioSequentialsFromXml root d.elmtUnitFolio
          "elementunitfolioseq" "sequf_" "unitfolioseq"
          "elementautonumfoliosequentials",
        elmtTenFolio := folioSequentialsFromXml root d.elmtTenFolio
          "elementtenfolioseq" "seqtf_" "tenfolioseq"
          "elementautonumfoliosequentials",
        elmtHundredFolio := folioSequentialsFromXml root d.elmtHundredFolio
          "elementhundredfolioseq" "seqhf_" "hundredfolioseq"
          "elementautonumfoliosequentials",
        cndUnitFolio := folioSequentialsFromXml root d.cndUnitFolio
          "conductorunitfolioseq" "sequf_" "unitfolioseq"
          "conductorautonumfoliosequentials",
        cndTenFolio := folioSequentialsFromXml root d.cndTenFolio
          "conductortenfolioseq" "seqtf_" "tenfolioseq"
          "conductorautonumfoliosequentials",
        cndHundredFolio := folioSequentialsFromXml root d.cndHundredFolio
          "conductorhundredfolioseq" "seqhf_" "hundredfolioseq"
          "conductorautonumfoliosequentials" }
      else d
    if root.children.isEmpty then (true, d1)
    else (true, { d1 with items := d1.items ++ loadItems root })

theorem fromXml_fst_true (root : Dom) (consider : Bool) (d : DState)
    (h : root.tag = "diagram") : (fromXml root consider d).1 = true := by
  by_cases hc : root.children.isEmpty <;>
    simp [fromXml, h, hc]

/-- C8: `Diagram::fromXml` on a root element returns false exactly when
the root's tag name is not `diagram`, in which case the diagram is left
completely unchanged; every root tagged `diagram` imports with result
true (invalid elements or conductors inside are skipped, not fatal). -/
theorem C8_fromXml_root_tag (root : Dom) (consider : Bool) (d : DState) :
    ((fromXml root consider d).1 = false ↔ root.tag ≠ "diagram")
    ∧ (root.tag ≠ "diagram" → (fromXml root consider d).2 = d) := by
  by_cases h : root.tag = "diagram"
  · refine ⟨⟨fun hf => ?_, fun hne => absurd h hne⟩, fun hne => absurd h hne⟩
    rw [fromXml_fst_true root consider d h] at hf
    exact absurd hf (by simp)
  · have hf : fromXml root consider d = (false, d) := by
      unfold fromXml
      rw [if_pos h]
    rw [hf]
    exact ⟨⟨fun _ => h, fun _ => rfl⟩, fun _ => rfl⟩

theorem C8_fromXml_root_tag_witness :
    (fromXml (Dom.mk "foo" [] []) true
        (DState.mk "" "" "" false false [] [] [] [] [] [] [])).1 = false
    ∧ (fromXml (Dom.mk "foo" [] []) true
        (DState.mk "" "" "" false false [] [] [] [] [] [] [])).2 =
      DState.mk "" "" "" false false [] [] [] [] [] [] [] :=
  ⟨(C8_fromXml_root_tag (Dom.mk "foo" [] []) true
      (DState.mk "" "" "" false false [] [] [] [] [] [] [])).1.mpr
      (by decide),
   (C8_fromXml_root_tag (Dom.mk "foo" [] []) true
      (DState.mk "" "" "" false false [] [] [] [] [] [] [])).2
      (by decide)⟩

/-- C10: with `whole_content = false`, `Diagram::toXml` includes a
conductor exactly when the parent elements of both of its terminals are
selected, while elements, texts, images, shapes, tables and terminal
strips are included exactly when they themselves are selected; the
non-empty conductor list is embedded in the exported document. -/
theorem C10_toXml_selection (items : List SItem) :
    (∀ c p1 p2, SItem.conductor c p1 p2 ∈ items →
      (SItem.conductor c p1 p2 ∈ listConductors false items ↔
        (elementSelected items p1 = true ∧ elementSelected items p2 = true)))
    ∧ (∀ e sel, SItem.element e sel ∈ items →
        (SItem.element e sel ∈ listElements false items ↔ sel = true))
    ∧ (∀ t sel, SItem.text t sel ∈ items →
        (SItem.text t sel ∈ listTexts false items ↔ sel = true))
    ∧ (∀ i sel, SItem.image i sel ∈ items →
        (SItem.image i sel ∈ listImages false items ↔ sel = true))
    ∧ (∀ s sel, SItem.shape s sel ∈ items →
        (SItem.shape s sel ∈ listShapes false items ↔ sel = true))
    ∧ (∀ t sel, SItem.table t sel ∈ items →
        (SItem.table t sel ∈ listTables false items ↔ sel = true))
    ∧ (∀ s sel, SItem.strip s sel ∈ items →
        (SItem.strip s sel ∈ listStrips false items ↔ sel = true))
    ∧ (∀ d : DState, d.items = items → listConductors false items ≠ [] →
        Dom.mk "conductors" [] ((listConductors false items).map itemToXml)
          ∈ (toXml false d).children) := by
  refine ⟨?_, ?_, ?_, ?_, ?_, ?_, ?_, ?_⟩
  · intro c p1 p2 hmem
    rw [listConductors, List.mem_filter]
    simp [hmem]
  · intro e sel hmem
    rw [listElements, List.mem_filter]
    simp [hmem]
  · intro t sel hmem
    rw [listTexts, List.mem_filter]
    simp [hmem]
  · intro i sel hmem
    rw [listImages, List.mem_filter]
    simp [hmem]
  · intro s sel hmem
    rw [listShapes, List.mem_filter]
    simp [hmem]
  · intro t sel hmem
    rw [listTables, List.mem_filter]
    simp [hmem]
  · intro s sel hmem
    rw [listStrips, List.mem_filter]
    simp [hmem]
  · intro d hd hne
    subst hd
    cases hl : listConductors false d.items with
    | nil => exact absurd hl hne
    | cons a as =>
      simp [toXml, itemChildren, hl]

theorem C10_toXml_selection_witness :
    let items := [SItem.element 1 true, SItem.element 2 false,
      SItem.conductor 7 1 1, SItem.conductor 8 1 2]
    (SItem.conductor 7 1 1 ∈ listConductors false items
      ∧ elementSelected items 1 = true)
    ∧ (SItem.conductor 8 1 2 ∉ listConductors false items
      ∧ elementSelected items 2 = false) := by
  refine ⟨⟨?_, by decide⟩, ⟨?_, by decide⟩⟩
  · exact ((C10_toXml_selection [SItem.element 1 true, SItem.element 2 false,
      SItem.conductor 7 1 1, SItem.conductor 8 1 2]).1 7 1 1
      (by decide)).mpr (by decide)
  · intro hmem
    have := ((C10_toXml_selection [SItem.element 1 true, SItem.element 2 false,
      SItem.conductor 7 1 1, SItem.conductor 8 1 2]).1 8 1 2
      (by decide)).mp hmem
    exact absurd this.2 (by decide)

/-- The empty diagram state. -/
def emptyState : DState :=
  DState.mk "" "" "" false false [] [] [] [] [] [] []

/-- C1 (failing part): a diagram whose freeze-new-elements flag is set
does not survive the XML round trip.  `Diagram::toXml(true)` writes the
flag as the string `"true"` (diagram.cpp:795-796), but `Diagram::fromXml`
reads it back with `QString::toInt` (diagram.cpp:1271), which yields 0
on the non-numeric text `"true"`, so the reimported diagram has the
flag cleared. -/
theorem C1_freeze_flags_not_roundtripped :
    ((toXml true { emptyState with freezeNewElements := true }).getAttr
        "freezeNewElement" = some "true")
    ∧ ((fromXml (toXml true { emptyState with freezeNewElements := true })
        true emptyState).1 = true)
    ∧ ((fromXml (toXml true { emptyState with freezeNewElements := true })
        true emptyState).2.freezeNewElements = false)
    ∧ ({ emptyState with freezeNewElements := true } : DState).freezeNewElements
        = true :=
  ⟨rfl, rfl, rfl, rfl⟩

end DiagXml
